import Mathlib

/-!
Shallow embedding of tools/shealth_steps_pipeline.py.

Modelling conventions used throughout:
* calendar dates and the naive datetimes built from them are epoch-day integers
  (`Int`); the string date "1970-01-01" (BAD_DATE) is epoch day 0, and the
  ISO `strftime`/`strptime` round trip is the identity on day numbers
  (lexicographic order on "YYYY-MM-DD" strings agrees with day order);
* Python floats are modelled as rationals (`ℚ`); `round(x, 2)` is rounding to a
  multiple of 1/100;
* Python dicts are association lists with first-match lookup; `dictInsert`
  overwrites an existing binding in place (as a dict write does) and otherwise
  appends, preserving insertion order as `dict` iteration does;
* the filesystem side (glob discovery, JSON decoding, mtime stamping, CSV
  output) is I/O and is not embedded; functions are parameterised by the record
  collections those stages produce.
-/

set_option maxHeartbeats 1000000

namespace Shealth

/-- Association-list lookup modelling a Python dict read: first binding wins. -/
def dictLookup {α β : Type} [DecidableEq α] (k : α) : List (α × β) → Option β
  | [] => none
  | (k₂, v) :: rest => if k = k₂ then some v else dictLookup k rest

/-- Association-list write modelling a Python dict write: replace the existing
binding in place, otherwise append at the end (dict insertion order). -/
def dictInsert {α β : Type} [DecidableEq α] (k : α) (v : β) : List (α × β) → List (α × β)
  | [] => [(k, v)]
  | (k₂, v₂) :: rest => if k = k₂ then (k, v) :: rest else (k₂, v₂) :: dictInsert k v rest

/-- Keys of an association list. -/
def keysOf {α β : Type} (m : List (α × β)) : List α := m.map Prod.fst

/-- PERSONAL_STEPS_TO_KM_COEFFS = (0.129091492, 0.000589979242, 2.45535812e-08),
the personalized quadratic steps-to-km fit, as exact rationals. -/
def PERSONAL_STEPS_TO_KM_COEFFS : ℚ × ℚ × ℚ :=
  (129091492 / 1000000000, 589979242 / 1000000000000, 245535812 / 10000000000000000)

/-- steps_to_km: km = A + B*steps + C*steps^2, clamped to be nonnegative. -/
def steps_to_km (steps : ℚ) : ℚ :=
  max 0 (PERSONAL_STEPS_TO_KM_COEFFS.1
    + PERSONAL_STEPS_TO_KM_COEFFS.2.1 * steps
    + PERSONAL_STEPS_TO_KM_COEFFS.2.2 * steps ^ 2)

/-- Python round(x, 2): round to the nearest multiple of 1/100 (half-way inputs
never arise at the points this development evaluates the function). -/
def roundQ2 (x : ℚ) : ℚ := ((round (x * 100) : ℤ) : ℚ) / 100

/-- One normalized observation, as produced by process_binning_json and consumed
by the pipeline: steps, distance_km, an optional parsed raw_date (epoch day,
day 0 being the BAD_DATE sentinel), the source file's mtime (seconds, as a
rational) and the source file path. -/
structure Record where
  steps : Nat
  distance_km : ℚ
  raw_date : Option Int
  mtime : ℚ
  file : String
deriving DecidableEq

/-- One configured reference cluster: a start date and the exact step counts of
consecutive days starting there. -/
structure Cluster where
  start_date : Int
  steps_seq : List Nat
deriving DecidableEq

/-- One output calendar day. -/
structure TimelineEntry where
  date : Int
  steps : Nat
  distance_km : ℚ
deriving DecidableEq

/-- The three configured clusters (CLUSTERS), start dates as epoch days:
2021-12-14 = 18975, 2023-05-16 = 19493, 2025-09-15 = 20346. -/
def CLUSTERS : List Cluster :=
  [⟨18975, [4702, 6105, 10453]⟩, ⟨19493, [2470, 9953, 5412]⟩, ⟨20346, [4964, 1247, 2865]⟩]

/-- CAL_START: the least cluster start date. -/
def CAL_START : Int := ((CLUSTERS.map Cluster.start_date).min?).getD 0

/-- CAL_END: the greatest cluster start date plus two days. -/
def CAL_END : Int := ((CLUSTERS.map (fun c => c.start_date + 2)).max?).getD 0

/-! ### Fragment parsing (_accumulate_from_iterable / process_binning_json)

A bin entry is modelled by its numeric fields (an association list; non-numeric
fields fail the isinstance test and behave as absent) together with the result
of extract_date_from_entry on it. The date-extraction heuristics themselves
(extract_date_from_entry / try_parse_date_like) are out-of-scope field
heuristics; their outcome is carried as the `dateVal` component. -/

/-- One bin entry of a binning_data JSON: its positive-testable numeric fields
and the pre-extracted optional date. -/
structure BinEntry where
  fields : List (String × ℚ)
  dateVal : Option Int
deriving DecidableEq

/-- Step-count candidate keys scanned per bin entry, in source order. -/
def STEP_KEYS_BIN : List String := ["mStepCount", "mBestSteps", "count", "steps", "value"]

/-- Distance candidate keys, in source order. -/
def DIST_KEYS : List String := ["mDistance", "distance"]

/-- Step-count candidate keys of the single-object fallback, in source order. -/
def STEP_KEYS_AGG : List String := ["mBestSteps", "mStepCount", "count", "steps", "value"]

/-- First candidate key whose value is present, numeric and strictly positive
(the per-entry candidate scan with its break). -/
def firstPosNum (fields : List (String × ℚ)) : List String → Option ℚ
  | [] => none
  | k :: rest =>
    match dictLookup k fields with
    | some v => if 0 < v then some v else firstPosNum fields rest
    | none => firstPosNum fields rest

/-- Accumulator state of _accumulate_from_iterable. -/
structure AccState where
  total_steps : Nat
  total_distance : ℚ
  found_distance : Bool
  found_date : Option Int
deriving DecidableEq

/-- Processing of a single bin entry: add the first positive steps candidate
(truncated to an integer; skipped when it truncates to 0, the falsy test),
add the first positive distance candidate and mark found_distance, and take
the entry's date when none was found yet. -/
def accum_step (st : AccState) (e : BinEntry) : AccState :=
  let steps_val : Option Nat := (firstPosNum e.fields STEP_KEYS_BIN).map (fun v => v.floor.toNat)
  let dist_val : Option ℚ := firstPosNum e.fields DIST_KEYS
  let st₁ :=
    match steps_val with
    | some s => if s ≠ 0 then { st with total_steps := st.total_steps + s } else st
    | none => st
  let st₂ :=
    match dist_val with
    | some dv =>
        if dv ≠ 0 then
          { st₁ with total_distance := st₁.total_distance + dv, found_distance := true }
        else st₁
    | none => st₁
  match st₂.found_date with
  | some _ => st₂
  | none => { st₂ with found_date := e.dateVal }

/-- The accumulation fold of _accumulate_from_iterable over all bin entries. -/
def accumState (items : List BinEntry) : AccState :=
  items.foldl accum_step ⟨0, 0, false, none⟩

/-- The fields of the dict returned by _accumulate_from_iterable /
process_binning_json before the caller attaches file and mtime. -/
structure RawRec where
  steps : Nat
  distance_km : ℚ
  raw_date : Option Int
deriving DecidableEq

/-- Model of _accumulate_from_iterable: accumulate steps/distance over the bin
entries; return nothing when no steps and no positive distance were found,
otherwise a record whose distance is the metres total divided by 1000 when a
positive distance was found and the steps-to-km fit otherwise, rounded to two
decimals. -/
def accumulate_from_iterable (items : List BinEntry) : Option RawRec :=
  let st := accumState items
  if st.total_steps = 0 ∧ st.found_distance = false then none
  else
    some
      { steps := st.total_steps
        distance_km :=
          roundQ2
            (if st.found_distance = true ∧ 0 < st.total_distance then st.total_distance / 1000
             else steps_to_km st.total_steps)
        raw_date := st.found_date }

/-- Top-level shape of a binning_data JSON document: a list of bins, or a dict
with its numeric fields, its list-valued fields and its extracted date. -/
inductive TopData where
  | list (items : List BinEntry)
  | dict (nums : List (String × ℚ)) (containers : List (String × List BinEntry)) (dateVal : Option Int)
deriving DecidableEq

/-- First container key present among binning_data / items / data (the container
scan with its break). -/
def firstContainer (containers : List (String × List BinEntry)) : List String → Option (List BinEntry)
  | [] => none
  | k :: rest =>
    match dictLookup k containers with
    | some l => some l
    | none => firstContainer containers rest

/-- Single-object fallback steps total: sum of int-truncations of every present
positive numeric steps alias (no break between aliases). -/
def sumStepsAliases (nums : List (String × ℚ)) : Nat :=
  STEP_KEYS_AGG.foldl
    (fun acc k =>
      match dictLookup k nums with
      | some v => if 0 < v then acc + v.floor.toNat else acc
      | none => acc)
    0

/-- Single-object fallback distance total and found flag. -/
def sumDistAliases (nums : List (String × ℚ)) : ℚ × Bool :=
  DIST_KEYS.foldl
    (fun acc k =>
      match dictLookup k nums with
      | some v => if 0 < v then (acc.1 + v, true) else acc
      | none => acc)
    (0, false)

/-- Model of process_binning_json on decoded JSON data (file I/O and the
mtime/file stamping excluded): a list is accumulated directly; a dict first
tries its first present container list, then falls back to the single-object
aggregate when that yields nothing. -/
def process_binning_json (data : TopData) : Option RawRec :=
  match data with
  | .list items => accumulate_from_iterable items
  | .dict nums containers dateVal =>
    let result :=
      match firstContainer containers ["binning_data", "items", "data"] with
      | some l => accumulate_from_iterable l
      | none => none
    match result with
    | some r => some r
    | none =>
      let steps := sumStepsAliases nums
      let dist := sumDistAliases nums
      if 0 < steps ∨ dist.2 = true then
        some
          { steps := steps
            distance_km :=
              roundQ2
                (if dist.2 = true ∧ 0 < dist.1 then dist.1 / 1000
                 else steps_to_km steps)
            raw_date := dateVal }
      else none

/-! ### Ordering (rec_sort_key) -/

/-- rec_sort_key: the naive-datetime sort key, in seconds. A present raw_date
that is not the BAD_DATE sentinel (epoch day 0) gives midnight of that day;
otherwise the file's mtime is used as a naive timestamp. The file path is the
final tie-break component. -/
def rec_sort_key (r : Record) : ℚ × String :=
  let dt : ℚ :=
    match r.raw_date with
    | some d => if d ≠ 0 then (d : ℚ) * 86400 else r.mtime
    | none => r.mtime
  (dt, r.file)

/-- Lexicographic comparison of sort keys, as Python compares the tuples. -/
def keyLE (x y : ℚ × String) : Prop := x.1 < y.1 ∨ (x.1 = y.1 ∧ x.2 ≤ y.2)

instance keyLE.instDecidable : DecidableRel keyLE := fun x y => by
  unfold keyLE; infer_instance

/-- The record order induced by rec_sort_key. -/
def recLE (a b : Record) : Prop := keyLE (rec_sort_key a) (rec_sort_key b)

instance recLE.instDecidable : DecidableRel recLE := fun a b =>
  keyLE.instDecidable (rec_sort_key a) (rec_sort_key b)

/-- records.sort(key=rec_sort_key): sort the parsed records by their key. -/
def sortRecords (records : List Record) : List Record :=
  List.insertionSort recLE records

/-! ### Cluster anchoring (find_sequence_index_after / the anchor loop) -/

/-- The window test of find_sequence_index_after: every position of the step
sequence agrees with the record at the corresponding offset. -/
def seqMatchesAt (records : List Record) (steps_seq : List Nat) (i : Nat) : Bool :=
  (List.range steps_seq.length).all fun j =>
    ((records.get? (i + j)).map Record.steps) == steps_seq.get? j

/-- find_sequence_index_after: first index i in range(start_at, n - L + 1) whose
window matches the step sequence. -/
def find_sequence_index_after (records : List Record) (steps_seq : List Nat) (start_at : Nat) :
    Option Nat :=
  (List.range' start_at (records.length + 1 - steps_seq.length - start_at)).find?
    (seqMatchesAt records steps_seq)

/-- The inner dict writes of a successful cluster match: bind index idx0+off to
date start_dt+off for each offset of the sequence. -/
def add_cluster_anchors (idx0 : Nat) (start_dt : Int) (L : Nat) (m : List (Nat × Int)) :
    List (Nat × Int) :=
  (List.range L).foldl (fun m₂ off => dictInsert (idx0 + off) (start_dt + off) m₂) m

/-- The anchor-location loop of assign_dates_map: match each cluster after the
current search_from, bind its window to its dates, and advance search_from past
the end of the match; unmatched clusters are skipped. -/
def locate_anchors (records : List Record) : List Cluster → Nat → List (Nat × Int) → List (Nat × Int)
  | [], _, m => m
  | c :: cs, search_from, m =>
    match find_sequence_index_after records c.steps_seq search_from with
    | none => locate_anchors records cs search_from m
    | some idx0 =>
      locate_anchors records cs (idx0 + c.steps_seq.length)
        (add_cluster_anchors idx0 c.start_date c.steps_seq.length m)

/-- The (start index, window length) pairs of the successively matched clusters,
collected along the same loop as locate_anchors. -/
def matchedRanges (records : List Record) : List Cluster → Nat → List (Nat × Nat)
  | [], _ => []
  | c :: cs, search_from =>
    match find_sequence_index_after records c.steps_seq search_from with
    | none => matchedRanges records cs search_from
    | some idx0 => (idx0, c.steps_seq.length) :: matchedRanges records cs (idx0 + c.steps_seq.length)

/-! ### Timeline construction and interpolation -/

/-- create_blank_timeline: one all-zero entry per day from cal_start to cal_end
inclusive (empty when the span is negative, as range() is on a negative count). -/
def create_blank_timeline (cal_start cal_end : Int) : List TimelineEntry :=
  (List.range (cal_end - cal_start + 1).toNat).map fun (k : Nat) => ⟨cal_start + (k : Int), 0, 0⟩

/-- known = sorted(anchors.items()): the bound anchors sorted by index. -/
def sortAnchors (anchors : List (Nat × Int)) : List (Nat × Int) :=
  List.insertionSort (fun p q : Nat × Int => p.1 ≤ q.1) anchors

/-- The backward fill: every index below the first anchor index fi gets the
first anchor date fd minus the index distance. -/
def backward_fill (fi : Nat) (fd : Int) : List (Nat × Int) :=
  (List.range fi).map fun j => (j, fd - ((fi : Int) - (j : Int)))

/-- One between-fill segment: the strictly intermediate indices of one
consecutive anchor pair, each bound to the earlier anchor date plus the index
distance. -/
def between_seg (ia : Nat) (da : Int) (ib : Nat) : List (Nat × Int) :=
  (List.range' (ia + 1) (ib - ia - 1)).map fun j => (j, da + ((j : Int) - (ia : Int)))

/-- The between fill: for each consecutive pair of known anchors, every strictly
intermediate index gets the earlier anchor date plus the index distance. -/
def between_fill : List (Nat × Int) → List (Nat × Int)
  | (ia, da) :: (ib, db) :: rest =>
    between_seg ia da ib ++ between_fill ((ib, db) :: rest)
  | _ => []

/-- The forward fill: every index above the last anchor index li, up to the end
of the record list, gets the last anchor date plus the index distance. -/
def forward_fill (li : Nat) (ld : Int) (n : Nat) : List (Nat × Int) :=
  (List.range' (li + 1) (n - (li + 1))).map fun j => (j, ld + ((j : Int) - (li : Int)))

/-- The idx_to_date dict after the backward / between / forward fill loops.
All four blocks bind pairwise disjoint key sets (the fills only write fresh
keys), so first-match lookup over their concatenation is dict lookup. -/
def idx_to_date_map (records : List Record) (anchors : List (Nat × Int)) : List (Nat × Int) :=
  match sortAnchors anchors with
  | [] => anchors
  | first :: rest =>
    anchors ++ backward_fill first.1 first.2
      ++ between_fill (first :: rest)
      ++ forward_fill ((first :: rest).getLastD first).1 ((first :: rest).getLastD first).2
          records.length

/-- One step of the date→best-record fold: skip records without a date; insert a
first record for its date; replace the current one exactly when the newcomer
has strictly more steps, or equal steps and strictly more distance. -/
def by_date_step (f : Nat → Option Int) (m : List (Int × Nat × ℚ)) (p : Nat × Record) :
    List (Int × Nat × ℚ) :=
  match f p.1 with
  | none => m
  | some d =>
    match dictLookup d m with
    | none => dictInsert d (p.2.steps, p.2.distance_km) m
    | some cur =>
      if p.2.steps > cur.1 ∨ (p.2.steps = cur.1 ∧ p.2.distance_km > cur.2) then
        dictInsert d (p.2.steps, p.2.distance_km) m
      else m

/-- The final loop of assign_dates_map: fold every indexed record through the
per-date conflict resolution, reading dates through the given index→date map. -/
def build_by_date (records : List Record) (f : Nat → Option Int) : List (Int × Nat × ℚ) :=
  records.enum.foldl (by_date_step f) []

/-- assign_dates_map: empty on an empty record list; locate the cluster anchors,
empty again when none bound; otherwise interpolate every index's date and fold
the records into the per-date best map. -/
def assign_dates_map (clusters : List Cluster) (records : List Record) : List (Int × Nat × ℚ) :=
  if records.isEmpty then []
  else
    let anchors := locate_anchors records clusters 0 []
    if anchors.isEmpty then []
    else build_by_date records (fun i => dictLookup i (idx_to_date_map records anchors))

/-! ### Overlay and dedup -/

/-- idx = date → position of the pre-built timeline rows. -/
def timeline_index (rows : List TimelineEntry) : List (Int × Nat) :=
  rows.enum.foldl (fun m p => dictInsert p.2.date p.1 m) []

/-- One overlay write of insert_data_after_timeline: when the mapped date exists
in the timeline, replace that row exactly when the incoming record has strictly
more steps, or equal steps and strictly more distance. -/
def overlay_one (idx : List (Int × Nat)) (rows : List TimelineEntry) (p : Int × Nat × ℚ) :
    List TimelineEntry :=
  match dictLookup p.1 idx with
  | none => rows
  | some i =>
    match rows.get? i with
    | none => rows
    | some cur =>
      if p.2.1 > cur.steps ∨ (p.2.1 = cur.steps ∧ p.2.2 > cur.distance_km) then
        rows.set i ⟨p.1, p.2.1, p.2.2⟩
      else rows

/-- insert_data_after_timeline: return the rows untouched on an empty date map,
otherwise fold every mapped date through the guarded overlay write (the
date→position index is computed once, up front). -/
def insert_data_after_timeline (rows : List TimelineEntry) (date_map : List (Int × Nat × ℚ)) :
    List TimelineEntry :=
  if date_map.isEmpty then rows
  else date_map.foldl (overlay_one (timeline_index rows)) rows

/-- sorted(timeline_rows, key=date). -/
def sortTimeline (rows : List TimelineEntry) : List TimelineEntry :=
  List.insertionSort (fun x y : TimelineEntry => x.date ≤ y.date) rows

/-- The dedup walk over date-sorted rows: zero-step rows pass through; a row
whose positive count was already seen is rewritten to an all-zero row for its
date; an unseen positive count is kept and recorded (the seen set is modelled
as the list of recorded counts). -/
def dedupe_go (seen : List Nat) : List TimelineEntry → List TimelineEntry
  | [] => []
  | r :: rest =>
    if r.steps = 0 then r :: dedupe_go seen rest
    else if r.steps ∈ seen then ⟨r.date, 0, 0⟩ :: dedupe_go seen rest
    else r :: dedupe_go (r.steps :: seen) rest

/-- dedupe_across_dates_preserve_timeline: walk the rows in ascending date order
with an initially empty seen set. -/
def dedupe_across_dates_preserve_timeline (rows : List TimelineEntry) : List TimelineEntry :=
  dedupe_go [] (sortTimeline rows)

/-- The record-to-calendar part of main(): blank timeline first, then the
date-map overlay, then the cross-date dedup (discovery and CSV output are I/O
and stay outside the model). -/
def pipeline (clusters : List Cluster) (cal_start cal_end : Int) (records : List Record) :
    List TimelineEntry :=
  dedupe_across_dates_preserve_timeline
    (insert_data_after_timeline (create_blank_timeline cal_start cal_end)
      (assign_dates_map clusters records))

/-! ### Concrete inputs used to instantiate the theorems -/

/-- A two-cluster configuration with adjacent start dates: day 0 with step
sequence [1], day 1 with step sequence [2]. -/
def cexClusters : List Cluster := [⟨0, [1]⟩, ⟨1, [2]⟩]

/-- Three records whose step counts are 1, 3, 2: the two one-step clusters
anchor indices 0 and 2, leaving index 1 strictly between them. -/
def cexRecords : List Record :=
  [⟨1, 0, none, 0, "a"⟩, ⟨3, 0, none, 0, "b"⟩, ⟨2, 0, none, 0, "c"⟩]

/-- A single bin entry carrying one metre of distance and nothing else. -/
def cexBin : List BinEntry := [⟨[("distance", 1)], none⟩]

/-! ## Helper lemmas -/

theorem dictLookup_append_none {α β : Type} [DecidableEq α] {k : α} {m₁ m₂ : List (α × β)}
    (h : dictLookup k m₁ = none) : dictLookup k (m₁ ++ m₂) = dictLookup k m₂ := by
  induction m₁ with
  | nil => rfl
  | cons p rest ih =>
    rw [dictLookup] at h
    rw [List.cons_append, dictLookup]
    split at h
    · exact absurd h (by simp)
    · rw [if_neg (by assumption)]
      exact ih h

theorem dictLookup_append_some {α β : Type} [DecidableEq α] {k : α} {v : β} {m₁ m₂ : List (α × β)}
    (h : dictLookup k m₁ = some v) : dictLookup k (m₁ ++ m₂) = some v := by
  induction m₁ with
  | nil => simp [dictLookup] at h
  | cons p rest ih =>
    rw [dictLookup] at h
    rw [List.cons_append, dictLookup]
    split at h
    · rw [if_pos (by assumption)]; exact h
    · rw [if_neg (by assumption)]
      exact ih h

theorem dictLookup_eq_none_iff {α β : Type} [DecidableEq α] {k : α} {m : List (α × β)} :
    dictLookup k m = none ↔ k ∉ keysOf m := by
  induction m with
  | nil => simp [dictLookup, keysOf]
  | cons p rest ih =>
    rw [dictLookup]
    by_cases hk : k = p.1
    · simp [keysOf, hk]
    · rw [if_neg hk, ih]
      simp [keysOf, hk]

theorem dictLookup_range'_map {s n : Nat} (g : Nat → Int) (k : Nat) :
    dictLookup k ((List.range' s n).map fun j => (j, g j)) =
      if s ≤ k ∧ k < s + n then some (g k) else none := by
  induction n generalizing s with
  | zero =>
    rw [if_neg (by omega)]
    rfl
  | succ n ih =>
    rw [List.range'_succ, List.map_cons]
    rw [show dictLookup k ((s, g s) :: ((List.range' (s + 1) n).map fun j => (j, g j))) =
        if k = s then some (g s)
        else dictLookup k ((List.range' (s + 1) n).map fun j => (j, g j)) from rfl]
    by_cases hk : k = s
    · subst hk
      rw [if_pos rfl, if_pos (by omega)]
    · rw [if_neg hk, ih]
      by_cases hin : s + 1 ≤ k ∧ k < s + 1 + n
      · rw [if_pos hin, if_pos (by omega)]
      · rw [if_neg hin, if_neg (by omega)]

theorem dictInsert_fresh {α β : Type} [DecidableEq α] {k : α} (v : β) {m : List (α × β)}
    (h : k ∉ keysOf m) : dictInsert k v m = m ++ [(k, v)] := by
  induction m with
  | nil => rfl
  | cons p rest ih =>
    simp only [keysOf, List.map_cons, List.mem_cons] at h
    push_neg at h
    rw [dictInsert, if_neg h.1, List.cons_append, ih h.2]

theorem keysOf_append {α β : Type} (m₁ m₂ : List (α × β)) :
    keysOf (m₁ ++ m₂) = keysOf m₁ ++ keysOf m₂ := by
  simp [keysOf]

/-! ## C1: blank calendar construction -/

theorem blank_get {cal_start cal_end : Int} {k : Nat} {e : TimelineEntry}
    (he : (create_blank_timeline cal_start cal_end).get? k = some e) :
    e.date = cal_start + k ∧ e.steps = 0 ∧ e.distance_km = 0 := by
  simp only [create_blank_timeline, List.get?_eq_getElem?, List.getElem?_map] at he
  rcases hk : (List.range (cal_end - cal_start + 1).toNat)[k]? with _ | j
  · rw [hk] at he; simp at he
  · rw [hk] at he
    have hlt : k < (cal_end - cal_start + 1).toNat := by
      have := List.getElem?_eq_some_iff.mp hk
      simpa using this.1
    rw [List.getElem?_range hlt] at hk
    injection hk with hj
    simp only [Option.map_some'] at he
    injection he with he
    subst he; subst hj
    exact ⟨rfl, rfl, rfl⟩

/-- C1: for every pair of configured dates with cal_start ≤ cal_end, the blank
timeline has (cal_end - cal_start) + 1 entries, entry k carries date
cal_start + k with steps = 0 and distance_km = 0 (so dates strictly increase by
exactly one day, with no gaps and no duplicates); the construction consumes no
records and no anchors, so this holds whether or not any exist. -/
theorem create_blank_timeline_spec (cal_start cal_end : Int) (h : cal_start ≤ cal_end) :
    (create_blank_timeline cal_start cal_end).length = (cal_end - cal_start).toNat + 1 ∧
    (∀ (k : Nat) (e : TimelineEntry), (create_blank_timeline cal_start cal_end).get? k = some e →
      e.date = cal_start + k ∧ e.steps = 0 ∧ e.distance_km = 0) ∧
    (∀ (k : Nat) (e e₂ : TimelineEntry),
      (create_blank_timeline cal_start cal_end).get? k = some e →
      (create_blank_timeline cal_start cal_end).get? (k + 1) = some e₂ →
      e₂.date = e.date + 1) := by
  refine ⟨?_, fun _ _ he => blank_get he, ?_⟩
  · simp [create_blank_timeline]
    omega
  · intro k e e₂ he he₂
    rw [(blank_get he).1, (blank_get he₂).1]
    push_cast
    ring

/-- C1 witness: the span from day 3 to day 5 has three all-zero entries. -/
theorem create_blank_timeline_spec_witness :
    (create_blank_timeline 3 5).length = (5 - 3 : Int).toNat + 1 :=
  (create_blank_timeline_spec 3 5 (by decide)).1

/-! ## C7: the steps-to-distance calibration -/

/-- C7 counterexample: the calibration function does not vanish at zero steps;
it returns the fitted intercept 0.129091492 km, so stepsToDistance(0) == 0
fails on the code. -/
theorem steps_to_km_zero_ne : steps_to_km 0 ≠ 0 := by
  norm_num [steps_to_km, PERSONAL_STEPS_TO_KM_COEFFS]

/-- C7 amended: steps_to_km 0 equals the positive fitted intercept 0.129091492
(not 0); the function is nonnegative everywhere and non-decreasing over
nonnegative step counts. -/
theorem steps_to_km_spec :
    steps_to_km 0 = 129091492 / 1000000000 ∧
    (∀ s : ℚ, 0 ≤ steps_to_km s) ∧
    (∀ s t : ℚ, 0 ≤ s → s ≤ t → steps_to_km s ≤ steps_to_km t) := by
  refine ⟨by norm_num [steps_to_km, PERSONAL_STEPS_TO_KM_COEFFS], fun s => le_max_left 0 _, ?_⟩
  intro s t hs hst
  unfold steps_to_km PERSONAL_STEPS_TO_KM_COEFFS
  apply max_le_max le_rfl
  have hsq : s ^ 2 ≤ t ^ 2 := by nlinarith
  nlinarith

/-- C7 witness: the amended facts at the concrete inputs 0, 5, and 3 ≤ 7. -/
theorem steps_to_km_spec_witness :
    steps_to_km 0 = 129091492 / 1000000000 ∧ 0 ≤ steps_to_km 5 ∧
      steps_to_km 3 ≤ steps_to_km 7 :=
  ⟨steps_to_km_spec.1, steps_to_km_spec.2.1 5,
    steps_to_km_spec.2.2 3 7 (by norm_num) (by norm_num)⟩

/-! ## C9: per-date conflict resolution is commutative -/

/-- C9: for any two records A and B whose indices map to the same date, the
per-date conflict-resolution fold (keep the greatest steps, tie-broken by the
greatest distance) produces the same date map for [A, B] as for [B, A]. -/
theorem by_date_commutative (A B : Record) (d : Int) (f : Nat → Option Int)
    (h0 : f 0 = some d) (h1 : f 1 = some d) :
    build_by_date [A, B] f = build_by_date [B, A] f := by
  simp only [build_by_date, List.enum, List.enumFrom, List.foldl, by_date_step, h0, h1,
    dictLookup, dictInsert, if_pos]
  rcases Nat.lt_trichotomy A.steps B.steps with hs | hs | hs
  · rw [if_pos (Or.inl hs), if_neg (by omega)]
  · rcases lt_trichotomy A.distance_km B.distance_km with hd | hd | hd
    · rw [if_pos (Or.inr ⟨hs.symm, hd⟩), if_neg (by rintro (h | ⟨_, h⟩) <;> [omega; linarith])]
    · rw [if_neg (by rintro (h | ⟨_, h⟩) <;> [omega; linarith]),
        if_neg (by rintro (h | ⟨_, h⟩) <;> [omega; linarith])]
      rw [hs, hd]
    · rw [if_neg (by rintro (h | ⟨_, h⟩) <;> [omega; linarith]), if_pos (Or.inr ⟨hs, hd⟩)]
  · rw [if_neg (by omega), if_pos (Or.inl hs)]

/-- C9 witness: commutativity at two concrete tied-steps records on date 0. -/
theorem by_date_commutative_witness :
    build_by_date [⟨5, 1, none, 0, "a"⟩, ⟨5, 2, none, 0, "b"⟩] (fun _ => some 0) =
      build_by_date [⟨5, 2, none, 0, "b"⟩, ⟨5, 1, none, 0, "a"⟩] (fun _ => some 0) :=
  by_date_commutative ⟨5, 1, none, 0, "a"⟩ ⟨5, 2, none, 0, "b"⟩ 0 (fun _ => some 0) rfl rfl

/-! ## C4 and C10: the deduplicator -/

theorem dedupe_go_map_date (seen : List Nat) (l : List TimelineEntry) :
    (dedupe_go seen l).map TimelineEntry.date = l.map TimelineEntry.date := by
  induction l generalizing seen with
  | nil => rfl
  | cons r rest ih =>
    rw [dedupe_go]
    split_ifs <;> simp [ih]

theorem dedupe_go_length (seen : List Nat) (l : List TimelineEntry) :
    (dedupe_go seen l).length = l.length := by
  have h := congrArg List.length (dedupe_go_map_date seen l)
  simpa using h

theorem dedupe_go_get? (seen : List Nat) (l : List TimelineEntry) (k : Nat) (e : TimelineEntry)
    (he : l.get? k = some e) :
    (dedupe_go seen l).get? k =
      some (if e.steps = 0 then e
        else if e.steps ∈ seen ∨ e.steps ∈ (l.take k).map TimelineEntry.steps then ⟨e.date, 0, 0⟩
        else e) := by
  induction l generalizing seen k with
  | nil => simp at he
  | cons x rest ih =>
    cases k with
    | zero =>
      simp only [List.get?] at he
      injection he with he
      subst he
      rw [dedupe_go]
      simp only [List.take_zero, List.map_nil, List.not_mem_nil, or_false]
      by_cases h₁ : x.steps = 0
      · rw [if_pos h₁, if_pos h₁]
        rfl
      · rw [if_neg h₁, if_neg h₁]
        by_cases h₂ : x.steps ∈ seen
        · rw [if_pos h₂, if_pos h₂]
          rfl
        · rw [if_neg h₂, if_neg h₂]
          rfl
    | succ k =>
      simp only [List.get?] at he
      rw [dedupe_go]
      by_cases h₁ : x.steps = 0
      · rw [if_pos h₁, List.get?_cons_succ, ih seen k he]
        by_cases hx : e.steps = 0
        · rw [if_pos hx, if_pos hx]
        · rw [if_neg hx, if_neg hx]
          refine congrArg some (if_congr ?_ rfl rfl)
          simp only [List.take_succ_cons, List.map_cons, List.mem_cons]
          constructor
          · rintro (h | h)
            · exact Or.inl h
            · exact Or.inr (Or.inr h)
          · rintro (h | h | h)
            · exact Or.inl h
            · exact absurd (h.trans h₁) hx
            · exact Or.inr h
      · rw [if_neg h₁]
        by_cases h₂ : x.steps ∈ seen
        · rw [if_pos h₂, List.get?_cons_succ, ih seen k he]
          by_cases hx : e.steps = 0
          · rw [if_pos hx, if_pos hx]
          · rw [if_neg hx, if_neg hx]
            refine congrArg some (if_congr ?_ rfl rfl)
            simp only [List.take_succ_cons, List.map_cons, List.mem_cons]
            constructor
            · rintro (h | h)
              · exact Or.inl h
              · exact Or.inr (Or.inr h)
            · rintro (h | h | h)
              · exact Or.inl h
              · exact Or.inl (h ▸ h₂)
              · exact Or.inr h
        · rw [if_neg h₂, List.get?_cons_succ, ih (x.steps :: seen) k he]
          by_cases hx : e.steps = 0
          · rw [if_pos hx, if_pos hx]
          · rw [if_neg hx, if_neg hx]
            refine congrArg some (if_congr ?_ rfl rfl)
            simp only [List.take_succ_cons, List.map_cons, List.mem_cons]
            tauto

/-- C4: in the deduplicated timeline, the entry at each position k of the
date-sorted input passes through unchanged when its steps are 0, or when its
positive step count does not occur at any chronologically earlier position; a
positive step count already seen at an earlier position is rewritten to
exactly steps = 0 and distance_km = 0 (keeping the date). -/
theorem dedupe_spec (rows : List TimelineEntry) (k : Nat) (e : TimelineEntry)
    (he : (sortTimeline rows).get? k = some e) :
    (dedupe_across_dates_preserve_timeline rows).get? k =
      some (if e.steps = 0 then e
        else if e.steps ∈ ((sortTimeline rows).take k).map TimelineEntry.steps then ⟨e.date, 0, 0⟩
        else e) := by
  have h := dedupe_go_get? [] (sortTimeline rows) k e he
  simpa [dedupe_across_dates_preserve_timeline] using h

/-- C4 witness: with 500 steps on days 1 and 2, the later occurrence is
rewritten to an all-zero entry. -/
theorem dedupe_spec_witness :
    (dedupe_across_dates_preserve_timeline [⟨2, 500, 1⟩, ⟨1, 500, 2⟩]).get? 1 =
      some (if (500 : Nat) = 0 then (⟨2, 500, 1⟩ : TimelineEntry)
        else if 500 ∈ ((sortTimeline [⟨2, 500, 1⟩, ⟨1, 500, 2⟩]).take 1).map TimelineEntry.steps
          then ⟨2, 0, 0⟩ else ⟨2, 500, 1⟩) :=
  dedupe_spec [⟨2, 500, 1⟩, ⟨1, 500, 2⟩] 1 ⟨2, 500, 1⟩ (by decide)

/-- C10: the deduplicator only rewrites steps and distance_km: its output has
the same length as its input, its dates are exactly the dates of the
date-sorted input, and they are an ascending permutation of the input dates, so
the contiguous gap-free calendar shape is preserved. -/
theorem dedupe_frame (rows : List TimelineEntry) :
    (dedupe_across_dates_preserve_timeline rows).length = rows.length ∧
    (dedupe_across_dates_preserve_timeline rows).map TimelineEntry.date =
      (sortTimeline rows).map TimelineEntry.date ∧
    ((dedupe_across_dates_preserve_timeline rows).map TimelineEntry.date).Perm
      (rows.map TimelineEntry.date) ∧
    ((dedupe_across_dates_preserve_timeline rows).map TimelineEntry.date).Sorted (· ≤ ·) := by
  haveI : IsTotal TimelineEntry (fun x y : TimelineEntry => x.date ≤ y.date) :=
    ⟨fun a b => le_total a.date b.date⟩
  haveI : IsTrans TimelineEntry (fun x y : TimelineEntry => x.date ≤ y.date) :=
    ⟨fun _ _ _ h₁ h₂ => le_trans h₁ h₂⟩
  have hmap : (dedupe_across_dates_preserve_timeline rows).map TimelineEntry.date =
      (sortTimeline rows).map TimelineEntry.date := dedupe_go_map_date [] (sortTimeline rows)
  have hperm : (sortTimeline rows).Perm rows := List.perm_insertionSort _ rows
  have hsorted : (sortTimeline rows).Sorted (fun x y : TimelineEntry => x.date ≤ y.date) :=
    List.sorted_insertionSort _ rows
  refine ⟨?_, hmap, ?_, ?_⟩
  · have h₁ := dedupe_go_length [] (sortTimeline rows)
    have h₂ := hperm.length_eq
    simp only [dedupe_across_dates_preserve_timeline] at h₁ ⊢
    omega
  · rw [hmap]
    exact hperm.map TimelineEntry.date
  · rw [hmap]
    exact (List.pairwise_map).mpr hsorted

/-! ## C5: empty records or zero anchors still give the blank calendar -/

theorem blank_sorted (cal_start cal_end : Int) :
    (create_blank_timeline cal_start cal_end).Sorted
      (fun x y : TimelineEntry => x.date ≤ y.date) := by
  rw [List.Sorted, List.pairwise_iff_get]
  intro i j hij
  have hi := blank_get (List.get?_eq_get i.2)
  have hj := blank_get (List.get?_eq_get j.2)
  rw [hi.1, hj.1]
  have : (i : Nat) ≤ (j : Nat) := le_of_lt hij
  omega

theorem dedupe_go_of_all_zero (seen : List Nat) (l : List TimelineEntry)
    (h : ∀ e ∈ l, e.steps = 0) : dedupe_go seen l = l := by
  induction l generalizing seen with
  | nil => rfl
  | cons x rest ih =>
    rw [dedupe_go, if_pos (h x (List.mem_cons_self x rest))]
    rw [ih seen fun e he => h e (List.mem_cons_of_mem x he)]

theorem blank_all_zero (cal_start cal_end : Int) :
    ∀ e ∈ create_blank_timeline cal_start cal_end, e.steps = 0 := by
  intro e he
  simp only [create_blank_timeline, List.mem_map] at he
  obtain ⟨k, _, rfl⟩ := he
  rfl

/-- C5: when the record list is empty, or anchoring binds nothing, the date map
is empty, the overlay returns the blank calendar untouched, and the whole
pipeline returns exactly the complete all-zero blank timeline spanning
cal_start to cal_end. -/
theorem zero_anchor_blank (clusters : List Cluster) (cal_start cal_end : Int)
    (records : List Record)
    (h : records = [] ∨ locate_anchors records clusters 0 [] = []) :
    assign_dates_map clusters records = [] ∧
    insert_data_after_timeline (create_blank_timeline cal_start cal_end)
      (assign_dates_map clusters records) = create_blank_timeline cal_start cal_end ∧
    pipeline clusters cal_start cal_end records = create_blank_timeline cal_start cal_end := by
  have hmap : assign_dates_map clusters records = [] := by
    rcases h with rfl | hanch
    · rfl
    · cases records with
      | nil => rfl
      | cons r rs => simp [assign_dates_map, hanch]
  refine ⟨hmap, ?_, ?_⟩
  · rw [hmap]
    rfl
  · rw [pipeline, hmap]
    rw [show insert_data_after_timeline (create_blank_timeline cal_start cal_end) [] =
        create_blank_timeline cal_start cal_end from rfl]
    rw [dedupe_across_dates_preserve_timeline]
    rw [show sortTimeline (create_blank_timeline cal_start cal_end) =
          create_blank_timeline cal_start cal_end from
        (blank_sorted cal_start cal_end).insertionSort_eq]
    exact dedupe_go_of_all_zero [] _ (blank_all_zero cal_start cal_end)

/-- C5 witness: the real cluster configuration with no records at all produces
the blank calendar on the span from day 0 to day 1. -/
theorem zero_anchor_blank_witness :
    pipeline CLUSTERS 0 1 [] = create_blank_timeline 0 1 :=
  (zero_anchor_blank CLUSTERS 0 1 [] (Or.inl rfl)).2.2

/-! ## C6: the record order -/

/-- C6: the rec_sort_key order is a total, transitive order on records; a
record with a valid (present, non-sentinel) raw_date sorts by that date
ascending; records without one sort by mtime ascending (both keys live in one
naive timestamp scale); equal timestamps are tie-broken lexicographically by
file path; sorting produces a permutation of the input sorted in this order,
so the same input always produces the same output order. -/
theorem orderer_spec :
    (∀ a b : Record, recLE a b ∨ recLE b a) ∧
    (∀ a b c : Record, recLE a b → recLE b c → recLE a c) ∧
    (∀ (a b : Record) (da db : Int), a.raw_date = some da → da ≠ 0 →
      b.raw_date = some db → db ≠ 0 → da < db → (recLE a b ∧ ¬ recLE b a)) ∧
    (∀ a b : Record, (a.raw_date = none ∨ a.raw_date = some 0) →
      (b.raw_date = none ∨ b.raw_date = some 0) → a.mtime < b.mtime →
      (recLE a b ∧ ¬ recLE b a)) ∧
    (∀ a b : Record, (rec_sort_key a).1 = (rec_sort_key b).1 →
      (recLE a b ↔ a.file ≤ b.file)) ∧
    (∀ records : List Record,
      (sortRecords records).Perm records ∧ (sortRecords records).Sorted recLE) := by
  have htot : ∀ a b : Record, recLE a b ∨ recLE b a := by
    intro a b
    rcases lt_trichotomy (rec_sort_key a).1 (rec_sort_key b).1 with h | h | h
    · exact Or.inl (Or.inl h)
    · rcases le_total (rec_sort_key a).2 (rec_sort_key b).2 with h₂ | h₂
      · exact Or.inl (Or.inr ⟨h, h₂⟩)
      · exact Or.inr (Or.inr ⟨h.symm, h₂⟩)
    · exact Or.inr (Or.inl h)
  have htrans : ∀ a b c : Record, recLE a b → recLE b c → recLE a c := by
    intro a b c hab hbc
    rcases hab with h | ⟨h, h₂⟩ <;> rcases hbc with h₃ | ⟨h₃, h₄⟩
    · exact Or.inl (h.trans h₃)
    · exact Or.inl (h₃ ▸ h)
    · exact Or.inl (h ▸ h₃)
    · exact Or.inr ⟨h.trans h₃, h₂.trans h₄⟩
  have hstrict : ∀ a b : Record, (rec_sort_key a).1 < (rec_sort_key b).1 →
      recLE a b ∧ ¬ recLE b a := by
    intro a b h
    refine ⟨Or.inl h, ?_⟩
    rintro (h₂ | ⟨h₂, _⟩)
    · exact absurd (h.trans h₂) (lt_irrefl _)
    · rw [h₂] at h
      exact lt_irrefl _ h
  refine ⟨htot, htrans, ?_, ?_, ?_, ?_⟩
  · intro a b da db ha hda hb hdb hlt
    apply hstrict
    simp only [rec_sort_key, ha, hb, hda, hdb, if_true, ne_eq, not_false_iff, ite_true]
    have : (da : ℚ) < (db : ℚ) := by exact_mod_cast hlt
    nlinarith
  · intro a b ha hb hlt
    apply hstrict
    have hka : (rec_sort_key a).1 = a.mtime := by
      rcases ha with h | h <;> simp [rec_sort_key, h]
    have hkb : (rec_sort_key b).1 = b.mtime := by
      rcases hb with h | h <;> simp [rec_sort_key, h]
    rw [hka, hkb]
    exact hlt
  · intro a b h
    constructor
    · rintro (h₂ | ⟨_, h₂⟩)
      · rw [h] at h₂
        exact absurd h₂ (lt_irrefl _)
      · exact h₂
    · intro h₂
      exact Or.inr ⟨h, h₂⟩
  · intro records
    haveI : IsTotal Record recLE := ⟨htot⟩
    haveI : IsTrans Record recLE := ⟨fun a b c => htrans a b c⟩
    exact ⟨List.perm_insertionSort _ _, List.sorted_insertionSort _ _⟩

/-- C6 witness: two records with valid raw_dates day 1 and day 2 order
strictly by date. -/
theorem orderer_spec_witness :
    recLE ⟨1, 0, some 1, 0, "a"⟩ ⟨1, 0, some 2, 0, "b"⟩ ∧
      ¬ recLE ⟨1, 0, some 2, 0, "b"⟩ ⟨1, 0, some 1, 0, "a"⟩ :=
  orderer_spec.2.2.1 _ _ 1 2 rfl (by decide) rfl (by decide) (by decide)

/-! ## C8: the parsed-record invariant -/

theorem firstPosNum_pos (fields : List (String × ℚ)) :
    ∀ (keys : List String) (v : ℚ), firstPosNum fields keys = some v → 0 < v := by
  intro keys
  induction keys with
  | nil =>
    intro v h
    simp [firstPosNum] at h
  | cons k rest ih =>
    intro v h
    rw [firstPosNum] at h
    split at h
    · split at h
      · injection h with h
        subst h
        assumption
      · exact ih v h
    · exact ih v h

theorem accum_step_dist (st : AccState) (e : BinEntry) :
    ((accum_step st e).total_distance = st.total_distance ∧
      (accum_step st e).found_distance = st.found_distance) ∨
    (∃ dv : ℚ, 0 < dv ∧ (accum_step st e).total_distance = st.total_distance + dv ∧
      (accum_step st e).found_distance = true) := by
  rw [accum_step]
  cases hdv : firstPosNum e.fields DIST_KEYS with
  | none =>
    simp only [hdv]
    left
    refine ⟨?_, ?_⟩ <;> (repeat' split) <;> rfl
  | some dv =>
    have hpos : 0 < dv := firstPosNum_pos e.fields DIST_KEYS dv hdv
    simp only [hdv]
    right
    refine ⟨dv, hpos, ?_, ?_⟩ <;> rw [if_pos (ne_of_gt hpos)] <;> (repeat' split) <;> rfl

theorem foldl_accum_inv (items : List BinEntry) :
    ∀ st : AccState, 0 ≤ st.total_distance →
      (st.found_distance = true → 0 < st.total_distance) →
      0 ≤ (items.foldl accum_step st).total_distance ∧
        ((items.foldl accum_step st).found_distance = true →
          0 < (items.foldl accum_step st).total_distance) := by
  induction items with
  | nil => exact fun st h₀ h₁ => ⟨h₀, h₁⟩
  | cons e rest ih =>
    intro st h₀ h₁
    rw [List.foldl_cons]
    apply ih
    · rcases accum_step_dist st e with ⟨hd, _⟩ | ⟨dv, hdv, hd, _⟩
      · rw [hd]; exact h₀
      · rw [hd]; linarith
    · intro hf
      rcases accum_step_dist st e with ⟨hd, hfd⟩ | ⟨dv, hdv, hd, _⟩
      · rw [hd]
        exact h₁ (hfd ▸ hf)
      · rw [hd]
        linarith

theorem accumState_inv (items : List BinEntry) :
    0 ≤ (accumState items).total_distance ∧
      ((accumState items).found_distance = true → 0 < (accumState items).total_distance) :=
  foldl_accum_inv items ⟨0, 0, false, none⟩ le_rfl (by intro h; exact absurd h (by decide))

theorem sumDistAliases_foldl_inv (nums : List (String × ℚ)) :
    ∀ (keys : List String) (acc : ℚ × Bool), 0 ≤ acc.1 → (acc.2 = true → 0 < acc.1) →
      0 ≤ (keys.foldl
        (fun acc k =>
          match dictLookup k nums with
          | some v => if 0 < v then (acc.1 + v, true) else acc
          | none => acc) acc).1 ∧
      ((keys.foldl
        (fun acc k =>
          match dictLookup k nums with
          | some v => if 0 < v then (acc.1 + v, true) else acc
          | none => acc) acc).2 = true →
        0 < (keys.foldl
        (fun acc k =>
          match dictLookup k nums with
          | some v => if 0 < v then (acc.1 + v, true) else acc
          | none => acc) acc).1) := by
  intro keys
  induction keys with
  | nil => exact fun acc h₀ h₁ => ⟨h₀, h₁⟩
  | cons k rest ih =>
    intro acc h₀ h₁
    rw [List.foldl_cons]
    cases hl : dictLookup k nums with
    | none =>
      simp only [hl]
      exact ih acc h₀ h₁
    | some v =>
      simp only [hl]
      by_cases hv : 0 < v
      · rw [if_pos hv]
        exact ih _ (by simp; linarith) (by intro _; simp; linarith)
      · rw [if_neg hv]
        exact ih acc h₀ h₁

theorem sumDistAliases_pos (nums : List (String × ℚ))
    (h : (sumDistAliases nums).2 = true) : 0 < (sumDistAliases nums).1 :=
  (sumDistAliases_foldl_inv nums DIST_KEYS (0, false) le_rfl
    (by intro hx; exact absurd hx (by decide))).2 h

theorem roundQ2_pos_of_five_le {t : ℚ} (h : 5 ≤ t) : 0 < roundQ2 (t / 1000) := by
  rw [roundQ2]
  have h₁ : (1 : ℤ) ≤ round (t / 1000 * 100) := by
    rw [round_eq]
    rw [Int.le_floor]
    push_cast
    linarith
  have h₂ : (1 : ℚ) ≤ ((round (t / 1000 * 100) : ℤ) : ℚ) := by
    exact_mod_cast h₁
  linarith

theorem roundQ2_eq_zero_of_lt_five {t : ℚ} (h₀ : 0 < t) (h : t < 5) : roundQ2 (t / 1000) = 0 := by
  rw [roundQ2]
  have h₁ : round (t / 1000 * 100) = 0 := by
    rw [round_eq]
    apply Int.floor_eq_zero_iff.mpr
    constructor <;> simp <;> linarith
  rw [h₁]
  norm_num

/-- C8 counterexample: a fragment made of one bin entry carrying one metre of
distance (and no steps) produces a Record with steps = 0 and distance_km = 0.0
(the kilometre value 0.001 rounds to two decimals as 0.0), refuting the claim
that every produced Record has steps > 0 or distanceKm > 0. -/
theorem record_invariant_counterexample :
    accumulate_from_iterable cexBin = some ⟨0, 0, none⟩ ∧
    process_binning_json (.list cexBin) = some ⟨0, 0, none⟩ ∧
    ¬(0 < (0 : Nat) ∨ 0 < (0 : ℚ)) := by
  have hacc : accumState cexBin = ⟨0, 1, true, none⟩ := by
    have h1 : firstPosNum [("distance", (1 : ℚ))] STEP_KEYS_BIN = none := by decide
    have h2 : firstPosNum [("distance", (1 : ℚ))] DIST_KEYS = some 1 := by decide
    show accum_step ⟨0, 0, false, none⟩ ⟨[("distance", 1)], none⟩ = ⟨0, 1, true, none⟩
    simp [accum_step, h1, h2]
  have hround : roundQ2 ((1 : ℚ) / 1000) = 0 :=
    roundQ2_eq_zero_of_lt_five (by norm_num) (by norm_num)
  refine ⟨?_, ?_, by decide⟩ <;>
  · show accumulate_from_iterable cexBin = some ⟨0, 0, none⟩
    simp only [accumulate_from_iterable, hacc]
    rw [if_neg (by decide)]
    rw [if_pos (by norm_num)]
    show some (⟨0, roundQ2 ((1 : ℚ) / 1000), none⟩ : RawRec) = some ⟨0, 0, none⟩
    rw [hround]

/-- C8 amended: a fragment with zero accumulated steps and no positive distance
yields no Record at all; every Record that is produced has steps > 0, or
distance_km > 0, or was produced from a positive accumulated distance below
five metres whose kilometre value rounds to a distance_km of exactly 0; the
same trichotomy holds for every Record out of process_binning_json. -/
theorem record_invariant_spec :
    (∀ items : List BinEntry,
      (accumState items).total_steps = 0 → (accumState items).found_distance = false →
      accumulate_from_iterable items = none) ∧
    (∀ (items : List BinEntry) (r : RawRec), accumulate_from_iterable items = some r →
      0 < r.steps ∨ 0 < r.distance_km ∨
        (r.steps = 0 ∧ r.distance_km = 0 ∧ (accumState items).found_distance = true ∧
          0 < (accumState items).total_distance ∧ (accumState items).total_distance < 5)) ∧
    (∀ (data : TopData) (r : RawRec), process_binning_json data = some r →
      0 < r.steps ∨ 0 < r.distance_km ∨ (r.steps = 0 ∧ r.distance_km = 0)) := by
  have haccum : ∀ (items : List BinEntry) (r : RawRec),
      accumulate_from_iterable items = some r →
      0 < r.steps ∨ 0 < r.distance_km ∨
        (r.steps = 0 ∧ r.distance_km = 0 ∧ (accumState items).found_distance = true ∧
          0 < (accumState items).total_distance ∧ (accumState items).total_distance < 5) := by
    intro items r h
    rw [accumulate_from_iterable] at h
    by_cases hc : (accumState items).total_steps = 0 ∧ (accumState items).found_distance = false
    · rw [if_pos hc] at h
      exact absurd h (by simp)
    · rw [if_neg hc] at h
      injection h with h
      subst h
      by_cases hsteps : (accumState items).total_steps = 0
      · have hfound : (accumState items).found_distance = true := by
          cases hfd : (accumState items).found_distance
          · exact absurd ⟨hsteps, hfd⟩ hc
          · rfl
        have hpos : 0 < (accumState items).total_distance := (accumState_inv items).2 hfound
        by_cases hfive : (accumState items).total_distance < 5
        · right; right
          refine ⟨hsteps, ?_, hfound, hpos, hfive⟩
          show roundQ2 _ = 0
          rw [if_pos ⟨hfound, hpos⟩]
          exact roundQ2_eq_zero_of_lt_five hpos hfive
        · right; left
          show 0 < roundQ2 _
          rw [if_pos ⟨hfound, hpos⟩]
          exact roundQ2_pos_of_five_le (le_of_not_lt hfive)
      · left
        exact Nat.pos_of_ne_zero hsteps
  refine ⟨?_, haccum, ?_⟩
  · intro items h₁ h₂
    rw [accumulate_from_iterable, if_pos ⟨h₁, h₂⟩]
  · intro data r h
    cases data with
    | list items =>
      rcases haccum items r h with h | h | h
      · exact Or.inl h
      · exact Or.inr (Or.inl h)
      · exact Or.inr (Or.inr ⟨h.1, h.2.1⟩)
    | dict nums containers dateVal =>
      rw [process_binning_json] at h
      rcases hfc : (match firstContainer containers ["binning_data", "items", "data"] with
          | some l => accumulate_from_iterable l
          | none => none) with _ | r₂
      · rw [hfc] at h
        by_cases hcond : 0 < sumStepsAliases nums ∨ (sumDistAliases nums).2 = true
        · rw [if_pos hcond] at h
          injection h with h
          subst h
          by_cases hsteps : sumStepsAliases nums = 0
          · have hfound : (sumDistAliases nums).2 = true := by
              rcases hcond with hc | hc
              · exact absurd hsteps (by omega)
              · exact hc
            have hdistpos : 0 < (sumDistAliases nums).1 := sumDistAliases_pos nums hfound
            by_cases hfive : (sumDistAliases nums).1 < 5
            · right; right
              refine ⟨hsteps, ?_⟩
              show roundQ2 _ = 0
              rw [if_pos ⟨hfound, hdistpos⟩]
              exact roundQ2_eq_zero_of_lt_five hdistpos hfive
            · right; left
              show 0 < roundQ2 _
              rw [if_pos ⟨hfound, hdistpos⟩]
              exact roundQ2_pos_of_five_le (le_of_not_lt hfive)
          · exact Or.inl (Nat.pos_of_ne_zero hsteps)
        · rw [if_neg hcond] at h
          exact absurd h (by simp)
      · rw [hfc] at h
        injection h with h
        cases hl : firstContainer containers ["binning_data", "items", "data"] with
        | none => rw [hl] at hfc; exact absurd hfc (by simp)
        | some l =>
          rw [hl] at hfc
          dsimp only at hfc
          have hacc : accumulate_from_iterable l = some r := by rw [hfc, h]
          rcases haccum l r hacc with hh | hh | hh
          · exact Or.inl hh
          · exact Or.inr (Or.inl hh)
          · exact Or.inr (Or.inr ⟨hh.1, hh.2.1⟩)

/-- C8 witness: the empty fragment yields no Record. -/
theorem record_invariant_spec_witness : accumulate_from_iterable [] = none :=
  record_invariant_spec.1 [] rfl rfl

/-! ## C3: sequence anchoring invariants -/

theorem find_seq_ge (records : List Record) (seq : List Nat) (start i : Nat)
    (h : find_sequence_index_after records seq start = some i) :
    start ≤ i ∧ i + seq.length ≤ records.length := by
  rw [find_sequence_index_after] at h
  have hm := List.mem_of_find?_eq_some h
  rw [List.mem_range'] at hm
  obtain ⟨j, hj, hij⟩ := hm
  omega

theorem matchedRanges_ge (records : List Record) :
    ∀ (cs : List Cluster) (sf : Nat) (r : Nat × Nat),
      r ∈ matchedRanges records cs sf → sf ≤ r.1 := by
  intro cs
  induction cs with
  | nil =>
    intro sf r hr
    simp [matchedRanges] at hr
  | cons c rest ih =>
    intro sf r hr
    rw [matchedRanges] at hr
    cases hf : find_sequence_index_after records c.steps_seq sf with
    | none =>
      rw [hf] at hr
      exact ih sf r hr
    | some idx0 =>
      rw [hf] at hr
      have hge := (find_seq_ge records c.steps_seq sf idx0 hf).1
      rcases List.mem_cons.mp hr with hr₁ | hr₂
      · rw [hr₁]
        exact hge
      · have := ih (idx0 + c.steps_seq.length) r hr₂
        omega

theorem matchedRanges_pairwise (records : List Record) :
    ∀ (cs : List Cluster) (sf : Nat),
      List.Pairwise (fun a b : Nat × Nat => a.1 + a.2 ≤ b.1) (matchedRanges records cs sf) := by
  intro cs
  induction cs with
  | nil =>
    intro sf
    simp [matchedRanges]
  | cons c rest ih =>
    intro sf
    rw [matchedRanges]
    cases hf : find_sequence_index_after records c.steps_seq sf with
    | none => exact ih sf
    | some idx0 =>
      exact List.Pairwise.cons
        (fun b hb => matchedRanges_ge records rest (idx0 + c.steps_seq.length) b hb)
        (ih (idx0 + c.steps_seq.length))

theorem matchedRanges_len (records : List Record) :
    ∀ (cs : List Cluster) (sf : Nat) (r : Nat × Nat), r ∈ matchedRanges records cs sf →
      ∃ c ∈ cs, r.2 = c.steps_seq.length := by
  intro cs
  induction cs with
  | nil =>
    intro sf r hr
    simp [matchedRanges] at hr
  | cons c rest ih =>
    intro sf r hr
    rw [matchedRanges] at hr
    cases hf : find_sequence_index_after records c.steps_seq sf with
    | none =>
      rw [hf] at hr
      obtain ⟨c₂, hc₂, hlen⟩ := ih sf r hr
      exact ⟨c₂, List.mem_cons_of_mem c hc₂, hlen⟩
    | some idx0 =>
      rw [hf] at hr
      rcases List.mem_cons.mp hr with hr₁ | hr₂
      · exact ⟨c, List.mem_cons_self c rest, by rw [hr₁]⟩
      · obtain ⟨c₂, hc₂, hlen⟩ := ih (idx0 + c.steps_seq.length) r hr₂
        exact ⟨c₂, List.mem_cons_of_mem c hc₂, hlen⟩

/-- C3: a sequence match never lands before the current search position (and
fits inside the record list); every matched cluster range starts at or after
the search position the loop began with; successively matched ranges are
ordered end-before-start (search resumes past each match), hence the half-open
ranges are pairwise disjoint; and when every configured sequence is nonempty
the matched start indices are strictly increasing. -/
theorem anchoring_spec (records : List Record) (clusters : List Cluster) (sf : Nat) :
    (∀ (seq : List Nat) (i : Nat), find_sequence_index_after records seq sf = some i →
      sf ≤ i ∧ i + seq.length ≤ records.length) ∧
    (∀ r ∈ matchedRanges records clusters sf, sf ≤ r.1) ∧
    List.Pairwise (fun a b : Nat × Nat => a.1 + a.2 ≤ b.1) (matchedRanges records clusters sf) ∧
    List.Pairwise (fun a b : Nat × Nat => ∀ x : Nat,
      a.1 ≤ x → x < a.1 + a.2 → ¬(b.1 ≤ x ∧ x < b.1 + b.2))
      (matchedRanges records clusters sf) ∧
    ((∀ c ∈ clusters, c.steps_seq ≠ []) →
      List.Pairwise (fun a b : Nat × Nat => a.1 < b.1) (matchedRanges records clusters sf)) := by
  refine ⟨fun seq i h => find_seq_ge records seq sf i h,
    fun r hr => matchedRanges_ge records clusters sf r hr,
    matchedRanges_pairwise records clusters sf, ?_, ?_⟩
  · refine (matchedRanges_pairwise records clusters sf).imp ?_
    intro a b hab x h₁ h₂ hx
    omega
  · intro hne
    refine List.Pairwise.imp_of_mem ?_ (matchedRanges_pairwise records clusters sf)
    intro a b ha hb hab
    obtain ⟨c, hc, hlen⟩ := matchedRanges_len records clusters sf a ha
    have hpos : 0 < a.2 := by
      rw [hlen]
      exact List.length_pos.mpr (hne c hc)
    omega

/-- C3 witness: on the concrete two-cluster input the matched start indices are
strictly increasing. -/
theorem anchoring_spec_witness :
    List.Pairwise (fun a b : Nat × Nat => a.1 < b.1) (matchedRanges cexRecords cexClusters 0) :=
  (anchoring_spec cexRecords cexClusters 0).2.2.2.2 (by decide)

/-! ## C2: index-to-date interpolation -/

theorem add_cluster_anchors_eq (idx0 : Nat) (start_dt : Int) :
    ∀ (L : Nat) (m : List (Nat × Int)), (∀ x ∈ keysOf m, x < idx0) →
      add_cluster_anchors idx0 start_dt L m =
        m ++ (List.range L).map (fun off => (idx0 + off, start_dt + (off : Int))) := by
  intro L
  induction L with
  | zero =>
    intro m hm
    simp [add_cluster_anchors]
  | succ L ih =>
    intro m hm
    rw [add_cluster_anchors, List.range_succ, List.foldl_append, List.foldl_cons, List.foldl_nil]
    rw [show (List.range L).foldl
        (fun m₂ off => dictInsert (idx0 + off) (start_dt + (off : Int)) m₂) m =
        add_cluster_anchors idx0 start_dt L m from rfl]
    rw [ih m hm]
    have hfresh : idx0 + L ∉
        keysOf (m ++ (List.range L).map fun off => (idx0 + off, start_dt + (off : Int))) := by
      rw [keysOf_append]
      intro hmem
      rw [List.mem_append] at hmem
      rcases hmem with hx | hx
      · have := hm _ hx
        omega
      · simp only [keysOf, List.map_map, List.mem_map, Function.comp] at hx
        obtain ⟨off, hoff, heq⟩ := hx
        rw [List.mem_range] at hoff
        omega
    rw [dictInsert_fresh _ hfresh, List.map_append, List.append_assoc]
    simp

theorem locate_anchors_sorted (records : List Record) :
    ∀ (cs : List Cluster) (sf : Nat) (m : List (Nat × Int)),
      (∀ x ∈ keysOf m, x < sf) → List.Pairwise (· < ·) (keysOf m) →
      List.Pairwise (· < ·) (keysOf (locate_anchors records cs sf m)) := by
  intro cs
  induction cs with
  | nil =>
    intro sf m _ hm
    exact hm
  | cons c rest ih =>
    intro sf m hlt hm
    rw [locate_anchors]
    cases hf : find_sequence_index_after records c.steps_seq sf with
    | none => exact ih sf m hlt hm
    | some idx0 =>
      have hge := (find_seq_ge records c.steps_seq sf idx0 hf).1
      have hkeys_lt : ∀ x ∈ keysOf m, x < idx0 := fun x hx => lt_of_lt_of_le (hlt x hx) hge
      show List.Pairwise (· < ·) (keysOf (locate_anchors records rest
        (idx0 + c.steps_seq.length) (add_cluster_anchors idx0 c.start_date c.steps_seq.length m)))
      rw [add_cluster_anchors_eq idx0 c.start_date c.steps_seq.length m hkeys_lt]
      apply ih
      · intro x hx
        rw [keysOf_append, List.mem_append] at hx
        rcases hx with hx | hx
        · have := hkeys_lt x hx
          omega
        · simp only [keysOf, List.map_map, List.mem_map, Function.comp] at hx
          obtain ⟨off, hoff, heq⟩ := hx
          rw [List.mem_range] at hoff
          omega
      · rw [keysOf_append, List.pairwise_append]
        refine ⟨hm, ?_, ?_⟩
        · simp only [keysOf, List.map_map]
          exact List.Pairwise.map _
            (fun x y hxy => by dsimp only [Function.comp_apply]; omega)
            (List.sorted_lt_range _)
        · intro x hx y hy
          have h₁ := hkeys_lt x hx
          simp only [keysOf, List.map_map, List.mem_map, Function.comp] at hy
          obtain ⟨off, _, heq⟩ := hy
          omega

theorem sortAnchors_eq_self {anchors : List (Nat × Int)}
    (h : List.Pairwise (· < ·) (keysOf anchors)) : sortAnchors anchors = anchors := by
  apply List.Sorted.insertionSort_eq
  rw [keysOf] at h
  have h₂ : List.Pairwise (fun p q : Nat × Int => p.1 < q.1) anchors := List.pairwise_map.mp h
  exact h₂.imp (fun hab => le_of_lt hab)

theorem not_mem_keys_between {known : List (Nat × Int)}
    (hpair : List.Pairwise (fun p q : Nat × Int => p.1 < q.1) known)
    {a i : Nat} {pa pb : Nat × Int} (ha : known.get? a = some pa)
    (hb : known.get? (a + 1) = some pb)
    (hia : pa.1 < i) (hib : i < pb.1) : i ∉ keysOf known := by
  intro hmem
  rw [keysOf, List.mem_map] at hmem
  obtain ⟨p, hp, hpi⟩ := hmem
  obtain ⟨idx, hidx⟩ := List.mem_iff_get.mp hp
  obtain ⟨hlta, hgeta⟩ := List.get?_eq_some.mp ha
  obtain ⟨hltb, hgetb⟩ := List.get?_eq_some.mp hb
  have hpget := List.pairwise_iff_get.mp hpair
  rcases Nat.lt_or_ge idx.1 a with h₂ | h₂
  · have hlt := hpget idx ⟨a, hlta⟩ h₂
    rw [hidx, hgeta] at hlt
    omega
  · rcases Nat.lt_or_ge (a + 1) idx.1 with h₃ | h₃
    · have hlt := hpget ⟨a + 1, hltb⟩ idx h₃
      rw [hidx, hgetb] at hlt
      omega
    · rcases Nat.lt_or_ge idx.1 (a + 1) with h₄ | h₄
      · have hidx_a : idx = ⟨a, hlta⟩ := Fin.ext (show idx.1 = a by omega)
        rw [hidx_a, hgeta] at hidx
        rw [← hidx] at hpi
        omega
      · have hidx_b : idx = ⟨a + 1, hltb⟩ := Fin.ext (show idx.1 = a + 1 by omega)
        rw [hidx_b, hgetb] at hidx
        rw [← hidx] at hpi
        omega

theorem between_fill_lookup :
    ∀ (known : List (Nat × Int)),
      List.Pairwise (fun p q : Nat × Int => p.1 < q.1) known →
      ∀ (a i : Nat) (pa pb : Nat × Int), known.get? a = some pa →
        known.get? (a + 1) = some pb → pa.1 < i → i < pb.1 →
        dictLookup i (between_fill known) = some (pa.2 + ((i : Int) - (pa.1 : Int))) := by
  intro known
  induction known with
  | nil =>
    intro _ a i pa pb ha
    simp at ha
  | cons p rest ih =>
    intro hpair a i pa pb ha hb hia hib
    cases rest with
    | nil =>
      rw [List.get?_cons_succ] at hb
      simp at hb
    | cons q rest₂ =>
      obtain ⟨k₁, d₁⟩ := p
      obtain ⟨k₂, d₂⟩ := q
      rcases List.pairwise_cons.mp hpair with ⟨hrel₁, hpair₂⟩
      have hk : k₁ < k₂ := hrel₁ (k₂, d₂) (List.mem_cons_self _ _)
      rw [show between_fill ((k₁, d₁) :: (k₂, d₂) :: rest₂) =
          between_seg k₁ d₁ k₂ ++ between_fill ((k₂, d₂) :: rest₂) from rfl]
      cases a with
      | zero =>
        rw [List.get?_cons_zero] at ha
        rw [List.get?_cons_succ, List.get?_cons_zero] at hb
        injection ha with ha
        injection hb with hb
        subst ha
        subst hb
        dsimp only at hia hib ⊢
        apply dictLookup_append_some
        rw [between_seg, dictLookup_range'_map, if_pos (by omega)]
      | succ a₂ =>
        rw [List.get?_cons_succ] at ha hb
        have hk₂pa : k₂ ≤ pa.1 := by
          cases a₂ with
          | zero =>
            rw [List.get?_cons_zero] at ha
            injection ha with ha
            rw [← ha]
          | succ a₃ =>
            rw [List.get?_cons_succ] at ha
            rcases List.pairwise_cons.mp hpair₂ with ⟨hrel₂, _⟩
            exact le_of_lt (hrel₂ pa (List.get?_mem ha))
        rw [dictLookup_append_none]
        · exact ih hpair₂ a₂ i pa pb ha hb hia hib
        · rw [between_seg, dictLookup_range'_map, if_neg (by omega)]

/-- C2 counterexample: with the cluster configuration ((day 0, [1]), (day 1,
[2])) and the record steps (1, 3, 2), anchoring binds index 0 to day 0 and
index 2 to day 1 (bound anchors i1 = 0 < i2 = 2, dates d1 = 0 ≤ d2 = 1), and
the intermediate index 1 is assigned day 1 — not a date strictly between d1
and d2, refuting the claim as stated. -/
theorem interpolation_counterexample :
    locate_anchors cexRecords cexClusters 0 [] = [(0, 0), (2, 1)] ∧
    dictLookup 1 (idx_to_date_map cexRecords (locate_anchors cexRecords cexClusters 0 [])) =
      some 1 ∧
    ¬((0 : Int) < 1 ∧ (1 : Int) < 1) := by
  refine ⟨by decide, by decide, by decide⟩

/-- C2 amended: between two anchors that are consecutive in the sorted bound
anchor list, every strictly intermediate index i is assigned exactly
date(i) = d1 + (i - i1) — linear, one day per index, hence strictly after d1
and strictly increasing in i; the assigned date is strictly before d2 exactly
when the index gap stays within the date gap (i - i1 < d2 - d1); when the
records between the two anchors outnumber the days between them the assigned
date reaches or passes d2 (as the counterexample shows). -/
theorem interpolation_spec (records : List Record) (clusters : List Cluster)
    (a i : Nat) (pa pb : Nat × Int)
    (ha : (sortAnchors (locate_anchors records clusters 0 [])).get? a = some pa)
    (hb : (sortAnchors (locate_anchors records clusters 0 [])).get? (a + 1) = some pb)
    (hia : pa.1 < i) (hib : i < pb.1) :
    dictLookup i (idx_to_date_map records (locate_anchors records clusters 0 [])) =
      some (pa.2 + ((i : Int) - (pa.1 : Int))) ∧
    pa.2 < pa.2 + ((i : Int) - (pa.1 : Int)) ∧
    (((i : Int) - (pa.1 : Int)) < pb.2 - pa.2 →
      pa.2 + ((i : Int) - (pa.1 : Int)) < pb.2) := by
  have hkeys : List.Pairwise (· < ·) (keysOf (locate_anchors records clusters 0 [])) :=
    locate_anchors_sorted records clusters 0 [] (by simp [keysOf]) (by simp [keysOf])
  have hsort : sortAnchors (locate_anchors records clusters 0 []) =
      locate_anchors records clusters 0 [] := sortAnchors_eq_self hkeys
  rw [hsort] at ha hb
  refine ⟨?_, by omega, by omega⟩
  obtain ⟨first, rest, hfr⟩ : ∃ f r, locate_anchors records clusters 0 [] = f :: r := by
    cases hanchors : locate_anchors records clusters 0 [] with
    | nil =>
      rw [hanchors] at ha
      simp at ha
    | cons f r => exact ⟨f, r, rfl⟩
  rw [hfr] at ha hb hkeys hsort ⊢
  have hpair : List.Pairwise (fun p q : Nat × Int => p.1 < q.1) (first :: rest) := by
    rw [keysOf] at hkeys
    exact List.pairwise_map.mp hkeys
  have hmap : idx_to_date_map records (first :: rest) =
      (first :: rest) ++ backward_fill first.1 first.2 ++ between_fill (first :: rest)
        ++ forward_fill ((first :: rest).getLastD first).1 ((first :: rest).getLastD first).2
            records.length := by
    rw [idx_to_date_map, hsort]
  rw [hmap]
  obtain ⟨hlta, hgeta⟩ := List.get?_eq_some.mp ha
  obtain ⟨hltb, hgetb⟩ := List.get?_eq_some.mp hb
  have hpget := List.pairwise_iff_get.mp hpair
  have hfirst_le : first.1 ≤ pa.1 := by
    cases a with
    | zero =>
      rw [List.get?_cons_zero] at ha
      injection ha with ha
      rw [ha]
    | succ a₂ =>
      have hlt := hpget ⟨0, by omega⟩ ⟨a₂ + 1, hlta⟩ (Fin.mk_lt_mk.mpr (by omega))
      rw [hgeta] at hlt
      exact le_of_lt hlt
  have hanchors_none : dictLookup i (first :: rest) = none :=
    dictLookup_eq_none_iff.mpr (not_mem_keys_between hpair ha hb hia hib)
  have hbackward_none : dictLookup i (backward_fill first.1 first.2) = none := by
    rw [backward_fill, List.range_eq_range', dictLookup_range'_map, if_neg (by omega)]
  have hbetween : dictLookup i (between_fill (first :: rest)) =
      some (pa.2 + ((i : Int) - (pa.1 : Int))) :=
    between_fill_lookup (first :: rest) hpair a i pa pb ha hb hia hib
  have hAB : dictLookup i ((first :: rest) ++ backward_fill first.1 first.2) = none := by
    rw [dictLookup_append_none hanchors_none]
    exact hbackward_none
  have hABC : dictLookup i ((first :: rest) ++ backward_fill first.1 first.2
      ++ between_fill (first :: rest)) = some (pa.2 + ((i : Int) - (pa.1 : Int))) := by
    rw [dictLookup_append_none hAB]
    exact hbetween
  exact dictLookup_append_some hABC

/-- C2 amended witness: on the counterexample input, the index 1 strictly
between the consecutive anchors (0, day 0) and (2, day 1) receives exactly
day 0 + (1 - 0). -/
theorem interpolation_spec_witness :
    dictLookup 1 (idx_to_date_map cexRecords (locate_anchors cexRecords cexClusters 0 [])) =
      some ((0 : Int) + ((1 : Int) - (0 : Int))) ∧
    (0 : Int) < 0 + ((1 : Int) - (0 : Int)) ∧
    (((1 : Int) - (0 : Int)) < 1 - 0 → (0 : Int) + ((1 : Int) - (0 : Int)) < 1) :=
  interpolation_spec cexRecords cexClusters 0 1 (0, 0) (2, 1)
    (by decide) (by decide) (by decide) (by decide)

end Shealth
